import Mathlib

/-!
# Verification of the chronodocs core (index subsystem, reconciler, scheduler)

A shallow embedding of the chronodocs Python sources:

* `update_index.py`   (`UpdateIndex`: content-hash index)
* `creation_index.py` (`CreationIndex`: creation-order identity index)
* `reconciler.py`     (`Reconciler.reconcile`: scan / plan / rename engine)
* `watcher_phase.py`  (`DebouncedReconcilerHandler`, `PhaseWatcher`: the
  debounce/throttle scheduler)

Conventions used by the embedding:

* Python `dict`s are modelled as insertion-ordered association lists with
  distinct keys; `dictGet` / `dictSet` / `dictRemove` mirror `d.get`,
  `d[k] = v` (replace in place when present, append when absent) and
  `d.pop` / `del`.
* The filesystem visible to `UpdateIndex._calculate_hash` is modelled as a
  map `fs : String → Option String` from a path to the SHA-256 digest of its
  byte stream, `none` when the file cannot be opened — exactly the
  information `_calculate_hash` returns.  The digest function itself is kept
  abstract; chronodocs never inspects a digest beyond equality.
* Timestamps (`time.time()`, `datetime.now`) are natural numbers supplied by
  the caller.
* The POSIX file key `"ino:<ino>-dev:<dev>"` is an injective encoding of the
  pair (inode, device); the embedding uses the pair `Nat × Nat` directly.
-/

namespace Chronodocs

/-! ## Insertion-ordered dictionaries (Python `dict`) -/

def dictGet {κ α : Type} [BEq κ] (m : List (κ × α)) (k : κ) : Option α :=
  (m.find? (fun p => p.1 == k)).map (·.2)

/-- Assignment `d[k] = v`: replace the binding in place when the key is present (a
Python dict keeps the key's position), append at the end otherwise. -/
def dictSet {κ α : Type} [BEq κ] (m : List (κ × α)) (k : κ) (v : α) :
    List (κ × α) :=
  match m with
  | [] => [(k, v)]
  | p :: t => if p.1 == k then (k, v) :: t else p :: dictSet t k v

def dictRemove {κ α : Type} [BEq κ] (m : List (κ × α)) (k : κ) :
    List (κ × α) :=
  m.filter (fun p => !(p.1 == k))

/-! ## ContentIndex — `update_index.py` -/

/-- One value of `UpdateIndex._entries`: `{hash, last_content_update,
path_history}`. -/
structure ContentRecord where
  hash : String
  last_content_update : Nat
  path_history : List String
deriving DecidableEq, Repr

abbrev UEntries := List (String × ContentRecord)

/-- Source `UpdateIndex.update_file(filepath, old_path)`.  `fs` plays the role of
`_calculate_hash` (already applied to a path), `now` the role of
`datetime.datetime.now(timezone.utc)`. -/
def update_file (fs : String → Option String) (now : Nat) (entries : UEntries)
    (filepath : String) (oldPath : Option String) : UEntries :=
  match fs filepath with
  | none => entries
  | some newHash =>
    let moved : Option ContentRecord :=
      match oldPath with
      | some op => dictGet entries op
      | none => none
    let entry : Option ContentRecord :=
      match moved with
      | some e => some e
      | none => dictGet entries filepath
    let entries1 : UEntries :=
      match oldPath, moved with
      | some op, some e => dictSet (dictRemove entries op) filepath e
      | _, _ => entries
    match entry with
    | none =>
        dictSet entries1 filepath
          { hash := newHash, last_content_update := now,
            path_history := [filepath] }
    | some e =>
        if e.hash ≠ newHash then
          dictSet entries1 filepath
            { hash := newHash, last_content_update := now,
              path_history :=
                if filepath ∈ e.path_history then e.path_history
                else e.path_history ++ [filepath] }
        else entries1

/-- Source `UpdateIndex.get_hash`. -/
def get_hash (entries : UEntries) (filepath : String) : Option String :=
  (dictGet entries filepath).map (·.hash)

/-- Source `UpdateIndex.has_changed`. -/
def has_changed (fs : String → Option String) (entries : UEntries)
    (filepath : String) : Bool :=
  fs filepath != get_hash entries filepath

/-- Source `UpdateIndex.remove_file`. -/
def uRemoveFile (entries : UEntries) (filepath : String) : UEntries :=
  dictRemove entries filepath

/-! ## Dictionary lemmas -/

theorem dictGet_nil {κ α : Type} [BEq κ] (k : κ) :
    dictGet ([] : List (κ × α)) k = none := rfl

theorem dictGet_cons {κ α : Type} [BEq κ] (p : κ × α) (t : List (κ × α))
    (k : κ) :
    dictGet (p :: t) k = if p.1 == k then some p.2 else dictGet t k := by
  simp only [dictGet, List.find?]
  cases h : p.1 == k <;> simp [h]

theorem dictGet_set_self {κ α : Type} [BEq κ] [LawfulBEq κ]
    (m : List (κ × α)) (k : κ) (v : α) :
    dictGet (dictSet m k v) k = some v := by
  induction m with
  | nil => simp [dictSet, dictGet_cons]
  | cons p t ih =>
    by_cases h : p.1 == k
    · simp [dictSet, h, dictGet_cons]
    · simp only [dictSet, h, if_neg, Bool.false_eq_true, not_false_iff,
        ite_false]
      rw [dictGet_cons]
      simp [h, ih]

theorem dictGet_set_ne {κ α : Type} [BEq κ] [LawfulBEq κ]
    (m : List (κ × α)) (k k' : κ) (v : α) (h : k' ≠ k) :
    dictGet (dictSet m k v) k' = dictGet m k' := by
  have hkk : (k == k') = false := by
    simp only [beq_eq_false_iff_ne, ne_eq]
    exact fun hk => h hk.symm
  induction m with
  | nil => simp [dictSet, dictGet_cons, hkk]
  | cons p t ih =>
    by_cases hp : p.1 == k
    · have hpk : p.1 = k := by exact eq_of_beq hp
      have : (p.1 == k') = false := by
        simp only [beq_eq_false_iff_ne, ne_eq, hpk]
        exact fun hk => h hk.symm
      simp [dictSet, hp, dictGet_cons, hkk, this]
    · simp only [dictSet, hp, Bool.false_eq_true, if_neg, not_false_iff,
        ite_false]
      rw [dictGet_cons, dictGet_cons]
      cases hpk : p.1 == k' <;> simp [hpk, ih]

theorem dictGet_remove_self {κ α : Type} [BEq κ] [LawfulBEq κ]
    (m : List (κ × α)) (k : κ) :
    dictGet (dictRemove m k) k = none := by
  induction m with
  | nil => rfl
  | cons p t ih =>
    by_cases hp : p.1 == k
    · simpa [dictRemove, hp] using ih
    · simp only [dictRemove, List.filter] at ih ⊢
      simp only [hp, Bool.not_false]
      rw [dictGet_cons]
      simp [hp, ih]

theorem dictGet_remove_ne {κ α : Type} [BEq κ] [LawfulBEq κ]
    (m : List (κ × α)) (k k' : κ) (h : k' ≠ k) :
    dictGet (dictRemove m k) k' = dictGet m k' := by
  induction m with
  | nil => rfl
  | cons p t ih =>
    by_cases hp : p.1 == k
    · have hpk : p.1 = k := eq_of_beq hp
      have hp' : (p.1 == k') = false := by
        simp only [beq_eq_false_iff_ne, ne_eq, hpk]
        exact fun hk => h hk.symm
      simp only [dictRemove, List.filter, hp, Bool.not_true] at ih ⊢
      rw [dictGet_cons]
      simp [hp', ih]
    · simp only [dictRemove, List.filter, hp, Bool.not_false] at ih ⊢
      rw [dictGet_cons, dictGet_cons]
      cases hpk : p.1 == k' <;> simp [hpk, ih]

/-! ## Claims about `UpdateIndex` -/

/-- C5: for a path with an existing record whose stored hash equals the
freshly computed one, `update_file` mutates nothing: the index is unchanged,
and repeating the call is idempotent. -/
theorem update_file_content_noop (fs : String → Option String) (now : Nat)
    (entries : UEntries) (p : String) (rec : ContentRecord)
    (h1 : dictGet entries p = some rec) (h2 : fs p = some rec.hash) :
    update_file fs now entries p none = entries ∧
      update_file fs now (update_file fs now entries p none) p none =
        update_file fs now entries p none := by
  have hmain : update_file fs now entries p none = entries := by
    simp [update_file, h1, h2]
  exact ⟨hmain, by rw [hmain, hmain]⟩

theorem update_file_content_noop_witness :
    (dictGet [("a", (⟨"h", 3, ["a"]⟩ : ContentRecord))] "a" =
        some ⟨"h", 3, ["a"]⟩ ∧
      (fun (_ : String) => some "h") "a" =
        some (ContentRecord.hash ⟨"h", 3, ["a"]⟩)) ∧
    (update_file (fun _ => some "h") 7 [("a", ⟨"h", 3, ["a"]⟩)] "a" none =
        [("a", ⟨"h", 3, ["a"]⟩)] ∧
      update_file (fun _ => some "h") 7
          (update_file (fun _ => some "h") 7 [("a", ⟨"h", 3, ["a"]⟩)] "a"
            none) "a" none =
        update_file (fun _ => some "h") 7 [("a", ⟨"h", 3, ["a"]⟩)] "a"
          none) :=
  ⟨⟨by decide, by decide⟩,
    update_file_content_noop (fun _ => some "h") 7 [("a", ⟨"h", 3, ["a"]⟩)]
      "a" ⟨"h", 3, ["a"]⟩ (by decide) (by decide)⟩

/-- C4 counterexample: renaming a path whose bytes are unchanged moves the
record but does *not* append the new path to `path_history` — the claim's
"appends the new path to the record's pathHistory" fails on such a move. -/
theorem rename_does_not_append_history :
    dictGet
        (update_file (fun q => if q = "b" then some "h" else none) 5
          [("a", (⟨"h", 0, ["a"]⟩ : ContentRecord))] "b" (some "a")) "b" =
      some ⟨"h", 0, ["a"]⟩ ∧
    ¬ ("b" ∈ (ContentRecord.path_history ⟨"h", 0, ["a"]⟩)) := by
  exact ⟨by decide, by decide⟩

/-- C4 amended: `update_file(path, oldPath)` with an existing record at
`oldPath` and unchanged bytes moves the record from the old key to the new
key unchanged — hash, timestamp and `path_history` all keep their previous
values; the new path is appended to `path_history` only together with a
content change. -/
theorem update_file_rename_move (fs : String → Option String) (now : Nat)
    (entries : UEntries) (old p : String) (rec : ContentRecord)
    (hold : dictGet entries old = some rec) (hne : p ≠ old)
    (hbytes : fs p = some rec.hash) :
    update_file fs now entries p (some old) =
        dictSet (dictRemove entries old) p rec ∧
      dictGet (update_file fs now entries p (some old)) p = some rec ∧
      dictGet (update_file fs now entries p (some old)) old = none := by
  have hmain : update_file fs now entries p (some old) =
      dictSet (dictRemove entries old) p rec := by
    simp [update_file, hold, hbytes]
  refine ⟨hmain, ?_, ?_⟩
  · rw [hmain, dictGet_set_self]
  · rw [hmain, dictGet_set_ne _ _ _ _ (fun h => hne h.symm),
      dictGet_remove_self]

theorem update_file_rename_move_witness :
    (dictGet [("a", (⟨"h", 0, ["a"]⟩ : ContentRecord))] "a" =
        some ⟨"h", 0, ["a"]⟩ ∧
      ("b" : String) ≠ "a" ∧
      (fun q => if q = "b" then some "h" else none) "b" =
        some (ContentRecord.hash ⟨"h", 0, ["a"]⟩)) ∧
    (update_file (fun q => if q = "b" then some "h" else none) 5
          [("a", ⟨"h", 0, ["a"]⟩)] "b" (some "a") =
        dictSet (dictRemove [("a", ⟨"h", 0, ["a"]⟩)] "a") "b"
          ⟨"h", 0, ["a"]⟩ ∧
      dictGet
          (update_file (fun q => if q = "b" then some "h" else none) 5
            [("a", ⟨"h", 0, ["a"]⟩)] "b" (some "a")) "b" =
        some ⟨"h", 0, ["a"]⟩ ∧
      dictGet
          (update_file (fun q => if q = "b" then some "h" else none) 5
            [("a", ⟨"h", 0, ["a"]⟩)] "b" (some "a")) "a" = none) :=
  ⟨⟨by decide, by decide, by decide⟩,
    update_file_rename_move (fun q => if q = "b" then some "h" else none) 5
      [("a", ⟨"h", 0, ["a"]⟩)] "a" "b" ⟨"h", 0, ["a"]⟩ (by decide)
      (by decide) (by decide)⟩

/-- C10: when the file cannot be read (`_calculate_hash` returns `None`),
`update_file` returns before touching anything: the whole index — including
any record at `oldPath` — is exactly as before. -/
theorem update_file_unreadable_frame (fs : String → Option String)
    (now : Nat) (entries : UEntries) (p : String) (op : Option String)
    (h : fs p = none) :
    update_file fs now entries p op = entries := by
  simp [update_file, h]

theorem update_file_unreadable_frame_witness :
    ((fun (_ : String) => (none : Option String)) "b" = none) ∧
    update_file (fun _ => none) 9 [("a", (⟨"h", 0, ["a"]⟩ : ContentRecord))]
        "b" (some "a") =
      [("a", ⟨"h", 0, ["a"]⟩)] :=
  ⟨by decide,
    update_file_unreadable_frame (fun _ => none) 9
      [("a", ⟨"h", 0, ["a"]⟩)] "b" (some "a") (by decide)⟩

/-- C9 counterexample: for an unreadable file with no stored hash,
`has_changed` returns `false`, while the claim's right-hand side ("no hash
is stored for that path") holds — the stated equivalence is false. -/
theorem has_changed_unreadable_unstored :
    ¬ (has_changed (fun _ => none) [] "a" = true ↔
        ((fun (_ : String) => (none : Option String)) "a" ≠
            get_hash [] "a" ∨
          get_hash ([] : UEntries) "a" = none)) := by
  decide

/-- C9 amended, both cases: when the file is readable (a fresh hash is
computed), `has_changed` is true iff the freshly computed hash differs from
the stored one or no hash is stored; when the file is unreadable (the fresh
hash is `None`), `has_changed` is true iff a hash is stored — in particular
it is false when none is stored. -/
theorem has_changed_iff (fs : String → Option String) (entries : UEntries)
    (p : String) :
    ((fs p).isSome →
      (has_changed fs entries p = true ↔
        (fs p ≠ get_hash entries p ∨ get_hash entries p = none))) ∧
    (fs p = none →
      (has_changed fs entries p = true ↔
        ¬ (get_hash entries p = none))) := by
  constructor
  · intro h
    obtain ⟨x, hx⟩ := Option.isSome_iff_exists.mp h
    unfold has_changed
    rw [bne_iff_ne]
    constructor
    · exact fun h' => Or.inl h'
    · rintro (h' | h')
      · exact h'
      · rw [h', hx]
        exact fun hcon => Option.noConfusion hcon
  · intro h
    unfold has_changed
    rw [bne_iff_ne, h]
    constructor
    · exact fun h' hcon => h' hcon.symm
    · exact fun h' hcon => h' hcon.symm

theorem has_changed_iff_witness :
    ((((fun q => if q = "a" then some "h" else none) "a").isSome = true ∧
      (has_changed (fun q => if q = "a" then some "h" else none)
          [("b", (⟨"x", 0, ["b"]⟩ : ContentRecord))] "a" = true ↔
        ((fun q => if q = "a" then some "h" else none) "a" ≠
            get_hash [("b", ⟨"x", 0, ["b"]⟩)] "a" ∨
          get_hash [("b", ⟨"x", 0, ["b"]⟩)] "a" = none))) ∧
    ((fun q => if q = "a" then some "h" else none) "b" = none ∧
      (has_changed (fun q => if q = "a" then some "h" else none)
          [("b", (⟨"x", 0, ["b"]⟩ : ContentRecord))] "b" = true ↔
        ¬ (get_hash [("b", ⟨"x", 0, ["b"]⟩)] "b" = none)))) :=
  ⟨⟨by decide,
      (has_changed_iff (fun q => if q = "a" then some "h" else none)
        [("b", ⟨"x", 0, ["b"]⟩)] "a").1 (by decide)⟩,
    ⟨by decide,
      (has_changed_iff (fun q => if q = "a" then some "h" else none)
        [("b", ⟨"x", 0, ["b"]⟩)] "b").2 (by decide)⟩⟩

/-! ## IdentityIndex — `creation_index.py` -/

/-- A regular file as the reconciler sees it: its current name within the
phase directory, its stat identity (inode, device), and the SHA-256 digest
of its bytes (`none` when unreadable). -/
structure DirFile where
  name : String
  ino : Nat
  dev : Nat
  hash : Option String
deriving DecidableEq, Repr

/-- Source `CreationIndex.get_file_key` on POSIX: the string
`"ino:<ino>-dev:<dev>"`, an injective encoding of this pair. -/
def fileKeyOf (f : DirFile) : Nat × Nat := (f.ino, f.dev)

/-- One value of `CreationIndex._entries`: `{key, filename, recorded_ctime,
inode, device}`. -/
structure CreationEntry where
  key : Nat × Nat
  filename : String
  recorded_ctime : Nat
  inode : Nat
  device : Nat
deriving DecidableEq, Repr

abbrev CEntries := List ((Nat × Nat) × CreationEntry)

/-- Source `CreationIndex.add_file(filepath)` with `recorded_ctime = now`
(`time.time()` at the call). -/
def add_file (entries : CEntries) (f : DirFile) (now : Nat) : CEntries :=
  let k := fileKeyOf f
  if (dictGet entries k).isSome then entries
  else
    dictSet entries k
      { key := k, filename := f.name, recorded_ctime := now, inode := f.ino,
        device := f.dev }

/-- Source `CreationIndex.get_ctime_for_file`. -/
def get_ctime_for_file (entries : CEntries) (f : DirFile) : Option Nat :=
  (dictGet entries (fileKeyOf f)).map (·.recorded_ctime)

/-- C6: `add_file` on a path whose key is already indexed is a no-op, so
`recorded_ctime` is write-once; in particular a file renamed between passes
(same inode/device, new name) keeps its recorded creation time. -/
theorem add_file_write_once (entries : CEntries) (f : DirFile) (now : Nat)
    (h : (dictGet entries (fileKeyOf f)).isSome) :
    add_file entries f now = entries ∧
      ∀ (g : DirFile) (now2 : Nat), fileKeyOf g = fileKeyOf f →
        get_ctime_for_file (add_file entries g now2) f =
          get_ctime_for_file entries f := by
  refine ⟨by simp [add_file, h], fun g now2 hg => ?_⟩
  have : add_file entries g now2 = entries := by
    simp [add_file, hg, h]
  rw [this]

theorem add_file_write_once_witness :
    (dictGet
          [(((3, 7) : Nat × Nat),
            (⟨(3, 7), "old.md", 11, 3, 7⟩ : CreationEntry))]
          (fileKeyOf ⟨"old.md", 3, 7, some "h"⟩)).isSome = true ∧
    (add_file [((3, 7), ⟨(3, 7), "old.md", 11, 3, 7⟩)]
          ⟨"old.md", 3, 7, some "h"⟩ 99 =
        [((3, 7), ⟨(3, 7), "old.md", 11, 3, 7⟩)] ∧
      ∀ (g : DirFile) (now2 : Nat),
        fileKeyOf g = fileKeyOf ⟨"old.md", 3, 7, some "h"⟩ →
          get_ctime_for_file
              (add_file [((3, 7), ⟨(3, 7), "old.md", 11, 3, 7⟩)] g now2)
              ⟨"old.md", 3, 7, some "h"⟩ =
            get_ctime_for_file [((3, 7), ⟨(3, 7), "old.md", 11, 3, 7⟩)]
              ⟨"old.md", 3, 7, some "h"⟩) :=
  ⟨by decide,
    add_file_write_once [((3, 7), ⟨(3, 7), "old.md", 11, 3, 7⟩)]
      ⟨"old.md", 3, 7, some "h"⟩ 99 (by decide)⟩

/-! ## Scheduler — `watcher_phase.py`

`DebouncedReconcilerHandler` state: `_timer` (a pending `threading.Timer`,
modelled as the absolute time it will fire), `_last_reconcile_time`, the
`_reconcile_lock` (`running`), and a ghost counter of
`reconciler.reconcile()` invocations. -/

structure HandlerState where
  timer : Option Nat
  lastReconcileTime : Nat
  running : Bool
  reconcileCount : Nat
deriving DecidableEq, Repr

/-- Source `_dispatch_reconciliation`: cancel any pending timer and start a new one
of duration `debounce_interval + uniform(0, 1)`; `jitter` is the sampled
jitter. -/
def dispatchReconciliation (debounce jitter now : Nat) (s : HandlerState) :
    HandlerState :=
  { s with timer := some (now + debounce + jitter) }

/-- Source `_run_reconciliation`, the timer callback body: non-blocking acquire of
`_reconcile_lock` (drop if held); if the elapsed time since the last run is
below `_min_reconcile_interval`, return without doing anything (in
particular without scheduling any new timer); otherwise run the reconciler
(here: bump the ghost counter; `dur` is the run's duration) and record the
completion time. -/
def runReconciliation (minInterval now dur : Nat) (s : HandlerState) :
    HandlerState :=
  if s.running then s
  else if now - s.lastReconcileTime < minInterval then s
  else
    { s with lastReconcileTime := now + dur,
             reconcileCount := s.reconcileCount + 1 }

/-- A pending timer fires: the timer is consumed, then the callback
`_run_reconciliation` executes at the firing time. -/
def fireTimer (minInterval dur : Nat) (s : HandlerState) : HandlerState :=
  match s.timer with
  | none => s
  | some t => runReconciliation minInterval t dur { s with timer := none }

/-- Source `PhaseWatcher`: the watchdog observer plus the handler it drives. -/
structure WatcherState where
  observerAlive : Bool
  handler : HandlerState
deriving DecidableEq, Repr

/-- Source `PhaseWatcher.stop`: stop and join the observer.  The handler — its
pending timer included — is not touched. -/
def stopWatcher (w : WatcherState) : WatcherState :=
  { w with observerAlive := false }

/-- Source `DebouncedReconcilerHandler.on_any_event` filtering: not a directory
event, not `opened`/`closed_no_write`, and the path not ignored. -/
def qualifyingEvent (ignored : String → Bool) (isDir : Bool)
    (eventType name : String) : Bool :=
  !isDir && !(eventType == "opened" || eventType == "closed_no_write") &&
    !ignored name

/-- A filesystem event reaches the handler only while the observer runs;
a qualifying event restarts the debounce timer. -/
def deliverEvent (ignored : String → Bool) (isDir : Bool)
    (eventType name : String) (debounce jitter now : Nat)
    (w : WatcherState) : WatcherState :=
  if w.observerAlive && qualifyingEvent ignored isDir eventType name then
    { w with handler := dispatchReconciliation debounce jitter now w.handler }
  else w

/-- C1: the code contradicts the claim (and the repository's own test
`test_throttling_of_reconcile_calls`, step 4).  When the debounce timer
fires with exclusion acquired but `elapsed < minInterval`
(here: fires at `t = 12`, last run finished at `10`, `minInterval = 5`),
`_run_reconciliation` returns without running the reconciler **and without
rescheduling any timer**: the pending work is dropped, and with no further
events the state is absorbing — no deferred invocation ever happens. -/
theorem throttled_fire_drops_work :
    fireTimer 5 1 ⟨some 12, 10, false, 1⟩ =
        (⟨none, 10, false, 1⟩ : HandlerState) ∧
      ∀ (minInterval dur : Nat),
        fireTimer minInterval dur (⟨none, 10, false, 1⟩ : HandlerState) =
          ⟨none, 10, false, 1⟩ :=
  ⟨by decide, fun _ _ => rfl⟩

/-- C7 counterexample: at a state with a pending debounce timer,
`PhaseWatcher.stop` returns with the timer still pending, and the timer can
then fire and execute a full reconciliation run (the invocation counter
increments) after `stop` has returned. -/
theorem stop_leaves_pending_timer :
    stopWatcher ⟨true, ⟨some 20, 0, false, 1⟩⟩ =
        (⟨false, ⟨some 20, 0, false, 1⟩⟩ : WatcherState) ∧
      (fireTimer 5 1
          (stopWatcher ⟨true, ⟨some 20, 0, false, 1⟩⟩).handler).reconcileCount
        = 2 := by
  decide

/-- C7 amended: stopping the watcher stops and joins the filesystem
observer, so no further events are dispatched afterwards — but it neither
cancels a pending debounce timer nor waits for in-flight reconciliation:
the handler state is returned untouched. -/
theorem stopWatcher_spec (w : WatcherState) :
    (stopWatcher w).observerAlive = false ∧
      (stopWatcher w).handler = w.handler ∧
      ∀ (ignored : String → Bool) (isDir : Bool) (evType name : String)
        (debounce jitter now : Nat),
        deliverEvent ignored isDir evType name debounce jitter now
            (stopWatcher w) =
          stopWatcher w := by
  refine ⟨rfl, rfl, fun ignored isDir evType name debounce jitter now => ?_⟩
  simp [deliverEvent, stopWatcher]

/-! ## Reconciler — `reconciler.py`

The phase directory is a list of regular files (`DirFile`), in the
enumeration order of `phase_dir.iterdir()`; paths inside the directory are
identified with file names.  The ignore decision `_is_ignored` is a
function of the file name only (fnmatch over the configured ∪ mandatory ∪
default patterns), abstracted as `ignored : String → Bool`.  Per-file
advisory locking during renames is abstracted as `lockOk : String → Bool`
(`false` = `filelock.Timeout` for that source path). -/

/-- Step 1: enumerate non-ignored regular files. -/
def scanFiles (ignored : String → Bool) (dir : List DirFile) :
    List DirFile :=
  dir.filter (fun f => !ignored f.name)

/-- The filesystem content visible to `UpdateIndex._calculate_hash` while
the directory has state `dir`. -/
def fsOf (dir : List DirFile) : String → Option String :=
  fun p => (dir.find? (fun f => f.name == p)).bind (·.hash)

/-- Step 1 (loop, creation side): `creation_index.add_file` for every
observed file. -/
def addAll (files : List DirFile) (now : Nat) (c : CEntries) : CEntries :=
  files.foldl (fun acc f => add_file acc f now) c

/-- Step 1 (loop, content side): `update_index.update_file` for every
observed file. -/
def updAll (fs : String → Option String) (files : List DirFile) (now : Nat)
    (u : UEntries) : UEntries :=
  files.foldl (fun acc f => update_file fs now acc f.name none) u

/-- Step 2: the stale keys — indexed keys absent from the current
observation set. -/
def staleKeys (c : CEntries) (diskKeys : List (Nat × Nat)) :
    List (Nat × Nat) :=
  (c.map (·.1)).filter (fun k => !diskKeys.contains k)

/-- Step 2 (loop body): remove the stale entry's ContentIndex counterpart
(looked up by its recorded `filename` in the pre-deletion snapshot; Python's
`if filename:` skips an empty string) and delete the creation entry. -/
def pruneStep (snapshot : CEntries) (st : CEntries × UEntries)
    (k : Nat × Nat) : CEntries × UEntries :=
  let u' :=
    match dictGet snapshot k with
    | some e => if e.filename = "" then st.2 else dictRemove st.2 e.filename
    | none => st.2
  (dictRemove st.1 k, u')

/-- Step 2: prune every stale key. -/
def pruneAll (c : CEntries) (u : UEntries) (diskKeys : List (Nat × Nat)) :
    CEntries × UEntries :=
  (staleKeys c diskKeys).foldl (pruneStep c) (c, u)

/-- Source `current_files_map`: key → observed file (a dict comprehension: on a
duplicate key the later file wins). -/
def currentFilesMap (files : List DirFile) (k : Nat × Nat) :
    Option DirFile :=
  files.reverse.find? (fun f => fileKeyOf f == k)

/-- Step 3 (list to sort): `(recorded_ctime, inode, file)` for every
indexed entry whose key is currently on disk. -/
def rankedTuples (c : CEntries) (files : List DirFile) :
    List (Nat × Nat × DirFile) :=
  c.filterMap (fun p =>
    match currentFilesMap files p.2.key with
    | some f => some (p.2.recorded_ctime, p.2.inode, f)
    | none => none)

/-- Sorting `key=lambda x: (x[0], x[1])` — compare by (recorded_ctime, inode). -/
def tupleLE (a b : Nat × Nat × DirFile) : Bool :=
  decide (a.1 < b.1 ∨ (a.1 = b.1 ∧ a.2.1 ≤ b.2.1))

/-- Stable insertion: `a` goes in front of the first element `b` with
`le a b`, so among `le`-equal elements the originally earlier one stays
first. -/
def insertSorted {α : Type} (le : α → α → Bool) (a : α) :
    List α → List α
  | [] => [a]
  | b :: t => if le a b then a :: b :: t else b :: insertSorted le a t

/-- Python's `sorted(...)` is a stable sort; a stable sort is a unique
function of the list and the comparator, modelled here by structurally
recursive stable insertion sort. -/
def stableSort {α : Type} (le : α → α → Bool) : List α → List α
  | [] => []
  | a :: t => insertSorted le a (stableSort le t)

/-- Step 3: the ranked tuples sorted by (recorded_ctime, inode). -/
def sortedTuples (c : CEntries) (files : List DirFile) :
    List (Nat × Nat × DirFile) :=
  stableSort tupleLE (rankedTuples c files)

/-- Formatting `f"{i:02d}"`: zero-pad to two digits. -/
def num2 (i : Nat) : String :=
  if i < 10 then "0" ++ toString i else toString i

/-- The rank marker `f"{i:02d}-"`. -/
def rankMark (i : Nat) : String := num2 i ++ "-"

/-- Strip an existing numerical marker: drop the first three characters
when the name is longer than 3, starts with two digits and has `-` third. -/
def stripNumMark (s : String) : String :=
  match s.data with
  | a :: b :: c :: rest =>
      if s.length > 3 ∧ a.isDigit ∧ b.isDigit ∧ c = '-' then String.mk rest
      else s
  | _ => s

/-- Python's `str.startswith`, character-wise. -/
def strStartsWith (s p : String) : Bool :=
  p.data.isPrefixOf s.data

/-- One plan slot: for rank `i` (the enumeration index), skip a file whose
name already carries its marker, otherwise rename to
`marker ++ stripped current name` (skipping the no-op case). -/
def planEntry (p : Nat × (Nat × Nat × DirFile)) : Option (String × String) :=
  let nm := p.2.2.2.name
  if strStartsWith nm (rankMark p.1) then none
  else
    let newName := rankMark p.1 ++ stripNumMark nm
    if nm == newName then none else some (nm, newName)

/-- Step 3 (plan): one slot per rank, in ascending rank order. -/
def buildPlan (sorted : List (Nat × Nat × DirFile)) :
    List (String × String) :=
  sorted.enum.filterMap planEntry

/-- Semantics of `os.rename old new`: no-op when both resolve to the same file;
otherwise the destination (if any) is atomically replaced and the source
now carries the new name. -/
def renameFile (o n : String) (dir : List DirFile) : List DirFile :=
  if o == n then dir
  else
    (dir.filter (fun f => !(f.name == n))).map
      (fun f => if f.name == o then { f with name := n } else f)

/-- Step 4 (live mode, one plan entry): acquire the per-file lock with a
bounded timeout (`Timeout` ⇒ skip), re-check that the source still exists
(vanished ⇒ skip), rename, and update the ContentIndex for the new path. -/
def execStep (lockOk : String → Bool) (now : Nat)
    (st : List DirFile × UEntries) (e : String × String) :
    List DirFile × UEntries :=
  if lockOk e.1 then
    if st.1.any (fun f => f.name == e.1) then
      let dir' := renameFile e.1 e.2 st.1
      (dir', update_file (fsOf dir') now st.2 e.2 (some e.1))
    else st
  else st

/-- Step 4: execute the plan in ascending rank order. -/
def execPlan (lockOk : String → Bool) (now : Nat)
    (plan : List (String × String)) (st : List DirFile × UEntries) :
    List DirFile × UEntries :=
  plan.foldl (execStep lockOk now) st

/-- The state a `Reconciler` owns: the directory plus both indices. -/
structure RecState where
  dir : List DirFile
  cIdx : CEntries
  uIdx : UEntries
deriving DecidableEq, Repr

/-- Source `Reconciler.reconcile(dry_run)`: scan, index, prune, plan, execute (in
live mode), and return the state whose indices are then persisted.  The
returned plan is the computed `rename_plan`. -/
def reconcile (ignored lockOk : String → Bool) (now : Nat) (dryRun : Bool)
    (st : RecState) : RecState × List (String × String) :=
  let files := scanFiles ignored st.dir
  let c1 := addAll files now st.cIdx
  let u1 := updAll (fsOf st.dir) files now st.uIdx
  let diskKeys := files.map fileKeyOf
  let pr := pruneAll c1 u1 diskKeys
  let sorted := sortedTuples pr.1 files
  let plan := buildPlan sorted
  if dryRun then ({ st with cIdx := pr.1, uIdx := pr.2 }, plan)
  else
    let ex := execPlan lockOk now plan (st.dir, pr.2)
    ({ dir := ex.1, cIdx := pr.1, uIdx := ex.2 }, plan)

/-! ## C8: per-file failures are skip-with-warning, never pass failure -/

/-- C8: in live mode, a plan entry whose per-file lock times out or whose
source vanished before its rename is skipped, and execution is exactly the
execution of the remaining entries — one bad file never aborts the pass.
Moreover the creation index the pass persists, and the plan itself, do not
depend on the lock oracle at all, so both indices are persisted at the end
of the pass regardless of such partial failures. -/
theorem exec_skip_never_aborts :
    (∀ (lockOk : String → Bool) (now : Nat) (pre : List (String × String))
        (o n : String) (post : List (String × String)) (dir : List DirFile)
        (u : UEntries),
        (lockOk o = false ∨
          ((execPlan lockOk now pre (dir, u)).1.any
            (fun f => f.name == o)) = false) →
        execPlan lockOk now (pre ++ (o, n) :: post) (dir, u) =
          execPlan lockOk now (pre ++ post) (dir, u)) ∧
    (∀ (ignored lockOk : String → Bool) (now : Nat) (st : RecState),
        (reconcile ignored lockOk now false st).1.cIdx =
          (reconcile ignored (fun _ => true) now false st).1.cIdx) ∧
    (∀ (ignored lockOk : String → Bool) (now : Nat) (st : RecState),
        (reconcile ignored lockOk now false st).2 =
          (reconcile ignored (fun _ => true) now false st).2) := by
  refine ⟨fun lockOk now pre o n post dir u h => ?_, fun _ _ _ _ => rfl,
    fun _ _ _ _ => rfl⟩
  show List.foldl _ _ _ = List.foldl _ _ _
  rw [List.foldl_append, List.foldl_append]
  have hskip : execStep lockOk now (execPlan lockOk now pre (dir, u)) (o, n)
      = execPlan lockOk now pre (dir, u) := by
    rcases h with h | h
    · simp [execStep, h]
    · simp [execStep, h]
  show List.foldl _ (execStep lockOk now
      (List.foldl (execStep lockOk now) (dir, u) pre) (o, n)) post = _
  exact congrArg (List.foldl _ · post) hskip

theorem exec_skip_never_aborts_witness :
    ((fun (_ : String) => false) "a" = false ∨
        ((execPlan (fun _ => false) 0 [] ([⟨"a", 1, 0, none⟩], [])).1.any
          (fun f => f.name == "a")) = false) ∧
    execPlan (fun _ => false) 0 ([] ++ ("a", "00-a") :: [("b", "01-b")])
        ([⟨"a", 1, 0, none⟩], []) =
      execPlan (fun _ => false) 0 ([] ++ [("b", "01-b")])
        ([⟨"a", 1, 0, none⟩], []) :=
  ⟨Or.inl rfl,
    exec_skip_never_aborts.1 (fun _ => false) 0 [] "a" "00-a"
      [("b", "01-b")] [⟨"a", 1, 0, none⟩] [] (Or.inl rfl)⟩

/-! ## Infrastructure for the reconciliation invariant (C2) and
idempotence (C3)

`cleanExec plan dir` says the pass executes cleanly: at each step the
source is still present and the target name is not carried by any other
file — no rename silently replaces (and thereby destroys) an existing
file, which `os.rename` would otherwise do. -/

def cleanExec : List (String × String) → List DirFile → Bool
  | [], _ => true
  | (o, n) :: rest, dir =>
    dir.any (fun f => f.name == o) && !(dir.any (fun f => f.name == n)) &&
      cleanExec rest (renameFile o n dir)

/-- The name a file ends the pass with, read off the rename plan. -/
def substName (plan : List (String × String)) (nm : String) : String :=
  match plan.find? (fun e => e.1 == nm) with
  | some e => e.2
  | none => nm

def substFile (plan : List (String × String)) (f : DirFile) : DirFile :=
  { f with name := substName plan f.name }

/-- The canonical name of the rank-`i` file whose name going into the plan
step was `nm`. -/
def canonName (i : Nat) (nm : String) : String :=
  if strStartsWith nm (rankMark i) then nm
  else rankMark i ++ stripNumMark nm

/-! ### Generic dictionary facts -/

theorem dictGet_eq_none_iff {κ α : Type} [BEq κ] [LawfulBEq κ]
    (m : List (κ × α)) (k : κ) :
    dictGet m k = none ↔ k ∉ m.map (·.1) := by
  simp only [dictGet, Option.map_eq_none', List.find?_eq_none,
    List.mem_map]
  constructor
  · rintro h ⟨p, hp, hpk⟩
    exact absurd (beq_iff_eq.mpr hpk) (by simpa using h p hp)
  · intro h p hp
    simp only [beq_iff_eq]
    exact fun hpk => h ⟨p, hp, hpk⟩

theorem dictSet_absent_eq_append {κ α : Type} [BEq κ] [LawfulBEq κ]
    (m : List (κ × α)) (k : κ) (v : α) (h : dictGet m k = none) :
    dictSet m k v = m ++ [(k, v)] := by
  induction m with
  | nil => rfl
  | cons p t ih =>
    rw [dictGet_cons] at h
    by_cases hp : p.1 == k
    · simp [hp] at h
    · simp only [hp] at h
      simp [dictSet, hp, ih h]

theorem mem_dictSet {κ α : Type} [BEq κ] (m : List (κ × α)) (k : κ) (v : α)
    (p : κ × α) (hp : p ∈ dictSet m k v) : p ∈ m ∨ p = (k, v) := by
  induction m with
  | nil => simpa [dictSet] using hp
  | cons q t ih =>
    by_cases hq : q.1 == k
    · simp only [dictSet, hq, if_pos] at hp
      rcases List.mem_cons.mp hp with h | h
      · exact Or.inr h
      · exact Or.inl (List.mem_cons_of_mem _ h)
    · simp only [dictSet, hq, Bool.false_eq_true, if_neg, not_false_iff,
        ite_false] at hp
      rcases List.mem_cons.mp hp with h | h
      · exact Or.inl (h ▸ List.mem_cons_self _ _)
      · rcases ih h with h' | h'
        · exact Or.inl (List.mem_cons_of_mem _ h')
        · exact Or.inr h'

/-! ### `add_file` / `addAll` facts -/

theorem add_file_get_mono (c : CEntries) (f : DirFile) (now : Nat)
    (k : Nat × Nat) (e : CreationEntry) (h : dictGet c k = some e) :
    dictGet (add_file c f now) k = some e := by
  unfold add_file
  by_cases hk : (dictGet c (fileKeyOf f)).isSome
  · simp [hk, h]
  · have hne : k ≠ fileKeyOf f := by
      intro hkk
      exact hk (by rw [← hkk, h]; rfl)
    simp only [hk, Bool.false_eq_true, if_neg, not_false_iff, ite_false]
    rw [dictGet_set_ne _ _ _ _ hne, h]

theorem addAll_get_mono (files : List DirFile) (now : Nat) (c : CEntries)
    (k : Nat × Nat) (e : CreationEntry) (h : dictGet c k = some e) :
    dictGet (addAll files now c) k = some e := by
  induction files generalizing c with
  | nil => exact h
  | cons f t ih => exact ih _ (add_file_get_mono c f now k e h)

theorem add_file_covers_self (c : CEntries) (f : DirFile) (now : Nat) :
    (dictGet (add_file c f now) (fileKeyOf f)).isSome := by
  unfold add_file
  by_cases hk : (dictGet c (fileKeyOf f)).isSome
  · simp [hk]
  · simp only [hk, Bool.false_eq_true, if_neg, not_false_iff, ite_false]
    rw [dictGet_set_self]
    rfl

theorem addAll_covers (files : List DirFile) (now : Nat) (c : CEntries)
    (f : DirFile) (hf : f ∈ files) :
    (dictGet (addAll files now c) (fileKeyOf f)).isSome := by
  induction files generalizing c with
  | nil => cases hf
  | cons g t ih =>
    rcases List.mem_cons.mp hf with h | h
    · subst h
      show (dictGet (addAll t now (add_file c f now)) (fileKeyOf f)).isSome
      obtain ⟨e, he⟩ := Option.isSome_iff_exists.mp (add_file_covers_self c f now)
      rw [addAll_get_mono t now _ _ e he]
      rfl
    · exact ih _ h

theorem addAll_of_covered (files : List DirFile) (now : Nat) (c : CEntries)
    (h : ∀ f ∈ files, (dictGet c (fileKeyOf f)).isSome) :
    addAll files now c = c := by
  induction files with
  | nil => rfl
  | cons f t ih =>
    have hf : add_file c f now = c := by
      simp [add_file, h f (List.mem_cons_self _ _)]
    show addAll t now (add_file c f now) = c
    rw [hf]
    exact ih (fun g hg => h g (List.mem_cons_of_mem _ hg))

theorem add_file_wf (c : CEntries) (f : DirFile) (now : Nat)
    (h : ∀ p ∈ c, p.2.key = p.1) :
    ∀ p ∈ add_file c f now, p.2.key = p.1 := by
  intro p hp
  unfold add_file at hp
  by_cases hk : (dictGet c (fileKeyOf f)).isSome
  · exact h p (by simpa [hk] using hp)
  · simp only [hk, Bool.false_eq_true, if_neg, not_false_iff,
      ite_false] at hp
    rcases mem_dictSet _ _ _ _ hp with h' | h'
    · exact h p h'
    · subst h'
      rfl

theorem addAll_wf (files : List DirFile) (now : Nat) (c : CEntries)
    (h : ∀ p ∈ c, p.2.key = p.1) :
    ∀ p ∈ addAll files now c, p.2.key = p.1 := by
  induction files generalizing c with
  | nil => exact h
  | cons f t ih => exact ih _ (add_file_wf c f now h)

theorem add_file_keys_nodup (c : CEntries) (f : DirFile) (now : Nat)
    (h : (c.map (·.1)).Nodup) :
    ((add_file c f now).map (·.1)).Nodup := by
  unfold add_file
  by_cases hk : (dictGet c (fileKeyOf f)).isSome
  · simpa [hk]
  · have hnone : dictGet c (fileKeyOf f) = none := by
      cases hg : dictGet c (fileKeyOf f)
      · rfl
      · rw [hg] at hk; exact absurd rfl hk
    simp only [hk, Bool.false_eq_true, if_neg, not_false_iff, ite_false]
    rw [dictSet_absent_eq_append _ _ _ hnone]
    rw [List.map_append]
    simp only [List.map_cons, List.map_nil]
    rw [List.nodup_append]
    refine ⟨h, List.nodup_singleton _, ?_⟩
    intro k hk1 hk2
    simp only [List.mem_singleton] at hk2
    subst hk2
    exact (dictGet_eq_none_iff c (fileKeyOf f)).mp hnone hk1

theorem addAll_keys_nodup (files : List DirFile) (now : Nat) (c : CEntries)
    (h : (c.map (·.1)).Nodup) :
    ((addAll files now c).map (·.1)).Nodup := by
  induction files generalizing c with
  | nil => exact h
  | cons f t ih => exact ih _ (add_file_keys_nodup c f now h)

/-! ### Pruning facts -/

theorem foldl_pruneStep_fst (snap : CEntries) (S : List (Nat × Nat))
    (c : CEntries) (u : UEntries) :
    (S.foldl (pruneStep snap) (c, u)).1 =
      c.filter (fun p => !(S.contains p.1)) := by
  induction S generalizing c u with
  | nil => simp
  | cons k t ih =>
    show (t.foldl (pruneStep snap) (pruneStep snap (c, u) k)).1 = _
    have h1 : pruneStep snap (c, u) k =
        (dictRemove c k, (pruneStep snap (c, u) k).2) := rfl
    rw [h1, ih]
    unfold dictRemove
    rw [List.filter_filter]
    apply List.filter_congr
    intro p _
    simp only [List.contains_cons, Bool.not_or]
    rw [Bool.and_comm]

theorem pruneAll_fst_eq_filter (c : CEntries) (u : UEntries)
    (dk : List (Nat × Nat)) :
    (pruneAll c u dk).1 = c.filter (fun p => dk.contains p.1) := by
  unfold pruneAll
  rw [foldl_pruneStep_fst]
  apply List.filter_congr
  intro p hp
  have hmem : p.1 ∈ c.map (·.1) := List.mem_map_of_mem _ hp
  show (!(staleKeys c dk).contains p.1) = dk.contains p.1
  unfold staleKeys
  by_cases hdk : p.1 ∈ dk
  · simp [hdk]
  · simp [hdk, hmem]

theorem pruneAll_noop (c : CEntries) (u : UEntries) (dk : List (Nat × Nat))
    (h : ∀ p ∈ c, dk.contains p.1 = true) :
    pruneAll c u dk = (c, u) := by
  unfold pruneAll
  have hstale : staleKeys c dk = [] := by
    unfold staleKeys
    rw [List.filter_eq_nil_iff]
    intro k hk
    rcases List.mem_map.mp hk with ⟨p, hp, hpk⟩
    subst hpk
    have hm : p.1 ∈ dk := by
      have := h p hp
      simpa using this
    simp [hm]
  rw [hstale]
  rfl

/-! ### Names, keys and the observed-file lookup -/

theorem strStartsWith_append (a b : String) :
    strStartsWith (a ++ b) a = true := by
  unfold strStartsWith
  rw [String.data_append, List.isPrefixOf_iff_prefix]
  exact List.prefix_append _ _

theorem find_by_key (l : List DirFile) (h : (l.map fileKeyOf).Nodup)
    (f : DirFile) (hf : f ∈ l) :
    l.find? (fun g => fileKeyOf g == fileKeyOf f) = some f := by
  induction l with
  | nil => cases hf
  | cons x t ih =>
    rw [List.map_cons, List.nodup_cons] at h
    rcases List.mem_cons.mp hf with hfx | hft
    · subst hfx
      exact List.find?_cons_of_pos _ (by simp)
    · have hne : (fileKeyOf x == fileKeyOf f) = false := by
        rw [beq_eq_false_iff_ne]
        intro hk
        exact h.1 (hk ▸ List.mem_map_of_mem _ hft)
      rw [List.find?_cons_of_neg _ (by simp [hne])]
      exact ih h.2 hft

theorem currentFilesMap_eq (files : List DirFile)
    (h : (files.map fileKeyOf).Nodup) (f : DirFile) (hf : f ∈ files) :
    currentFilesMap files (fileKeyOf f) = some f := by
  unfold currentFilesMap
  apply find_by_key
  · rw [List.map_reverse]
    exact List.nodup_reverse.mpr h
  · exact List.mem_reverse.mpr hf

theorem currentFilesMap_key (files : List DirFile) (k : Nat × Nat)
    (f : DirFile) (h : currentFilesMap files k = some f) :
    fileKeyOf f = k ∧ f ∈ files := by
  unfold currentFilesMap at h
  constructor
  · have := List.find?_some h
    simpa using this
  · have := List.mem_of_find?_eq_some h
    simpa using this

theorem rankedTuples_mem (c : CEntries) (files : List DirFile)
    (t : Nat × Nat × DirFile) (ht : t ∈ rankedTuples c files) :
    t.2.2 ∈ files ∧ ∃ p ∈ c, fileKeyOf t.2.2 = p.2.key := by
  unfold rankedTuples at ht
  rcases List.mem_filterMap.mp ht with ⟨p, hp, hpt⟩
  cases hcf : currentFilesMap files p.2.key with
  | none => rw [hcf] at hpt; cases hpt
  | some f =>
    rw [hcf] at hpt
    obtain ⟨hk, hfm⟩ := currentFilesMap_key _ _ _ hcf
    cases hpt
    exact ⟨hfm, p, hp, hk⟩

theorem rankedTuples_names_nodup (c : CEntries) (files : List DirFile)
    (hck : (c.map (·.1)).Nodup) (hwf : ∀ p ∈ c, p.2.key = p.1)
    (hnames : (files.map (·.name)).Nodup) :
    ((rankedTuples c files).map (fun t => t.2.2.name)).Nodup := by
  induction c with
  | nil => simp [rankedTuples]
  | cons p t ih =>
    rw [List.map_cons, List.nodup_cons] at hck
    have hwft : ∀ q ∈ t, q.2.key = q.1 :=
      fun q hq => hwf q (List.mem_cons_of_mem _ hq)
    have ihr := ih hck.2 hwft
    unfold rankedTuples
    rw [List.filterMap_cons]
    cases hcf : currentFilesMap files p.2.key with
    | none => exact ihr
    | some f =>
      simp only [List.map_cons, List.nodup_cons]
      refine ⟨?_, ihr⟩
      intro hmem
      rcases List.mem_map.mp hmem with ⟨t', ht', hname⟩
      obtain ⟨hf'mem, q, hq, hqk⟩ := rankedTuples_mem t files t' ht'
      obtain ⟨hfk, hfmem⟩ := currentFilesMap_key files p.2.key f hcf
      have hff : t'.2.2 = f :=
        List.inj_on_of_nodup_map hnames hf'mem hfmem hname
      rw [hff] at hqk
      have : p.1 = q.1 := by
        rw [← hwf p (List.mem_cons_self _ _), ← hwft q hq, ← hqk, hfk]
      exact hck.1 (this ▸ List.mem_map_of_mem _ hq)

theorem planEntry_fst (p : Nat × (Nat × Nat × DirFile)) (e : String × String)
    (h : planEntry p = some e) : e.1 = p.2.2.2.name := by
  unfold planEntry at h
  by_cases h1 : strStartsWith p.2.2.2.name (rankMark p.1)
  · simp [h1] at h
  · simp only [h1, Bool.false_eq_true, if_neg, not_false_iff, ite_false] at h
    by_cases h2 : p.2.2.2.name == rankMark p.1 ++ stripNumMark p.2.2.2.name
    · simp [h2] at h
    · simp only [h2, Bool.false_eq_true, if_neg, not_false_iff,
        ite_false, Option.some.injEq] at h
      rw [← h]

theorem enumFrom_plan_sources_sublist (l : List (Nat × Nat × DirFile)) :
    ∀ j : Nat, List.Sublist
      (((l.enumFrom j).filterMap planEntry).map (·.1))
      (l.map (fun t => t.2.2.name)) := by
  induction l with
  | nil => intro j; simp
  | cons t rest ih =>
    intro j
    rw [List.enumFrom_cons, List.filterMap_cons]
    cases he : planEntry (j, t) with
    | none =>
      exact List.Sublist.cons _ (ih (j + 1))
    | some e =>
      rw [List.map_cons, List.map_cons]
      have := planEntry_fst (j, t) e he
      rw [this]
      exact List.Sublist.cons₂ _ (ih (j + 1))

theorem buildPlan_sources_sublist (sorted : List (Nat × Nat × DirFile)) :
    List.Sublist ((buildPlan sorted).map (·.1))
      (sorted.map (fun t => t.2.2.name)) := by
  unfold buildPlan
  rw [List.enum]
  exact enumFrom_plan_sources_sublist sorted 0

/-! ### Clean plan execution -/

/-- The pointwise effect of one clean rename on a file. -/
def renamePointwise (o n : String) (f : DirFile) : DirFile :=
  if f.name == o then { f with name := n } else f

theorem substFile_nil (f : DirFile) : substFile [] f = f := rfl

theorem substName_not_source (plan : List (String × String)) (nm : String)
    (h : nm ∉ plan.map (·.1)) : substName plan nm = nm := by
  unfold substName
  have : plan.find? (fun e => e.1 == nm) = none := by
    rw [List.find?_eq_none]
    intro e he
    simp only [beq_iff_eq]
    exact fun hnm => h (hnm ▸ List.mem_map_of_mem _ he)
  rw [this]

theorem renameFile_no_target (o n : String) (dir : List DirFile)
    (h2 : dir.any (fun f => f.name == n) = false) (hon : o ≠ n) :
    renameFile o n dir = dir.map (renamePointwise o n) := by
  unfold renameFile
  have ho : (o == n) = false := beq_eq_false_iff_ne.mpr hon
  simp only [ho, Bool.false_eq_true, if_neg, not_false_iff, ite_false]
  have hfl : dir.filter (fun f => !(f.name == n)) = dir := by
    rw [List.filter_eq_self]
    intro f hf
    have := List.any_eq_false.mp h2 f hf
    simpa using this
  rw [hfl]
  rfl

theorem names_renameFile (o n : String) (dir : List DirFile)
    (h2 : dir.any (fun f => f.name == n) = false) (hon : o ≠ n) :
    (renameFile o n dir).map (·.name) =
      (dir.map (·.name)).map (fun x => if x == o then n else x) := by
  rw [renameFile_no_target o n dir h2 hon, List.map_map, List.map_map]
  apply List.map_congr_left
  intro f _
  show (renamePointwise o n f).name = _
  unfold renamePointwise
  by_cases hf : f.name == o
  · have hf' := eq_of_beq hf
    simp [hf, hf']
  · have hf' : f.name ≠ o := fun hc => hf (by simp [hc])
    simp [hf, hf']

theorem replace_nodup (l : List String) (o n : String) (hl : l.Nodup)
    (hn : n ∉ l) :
    (l.map (fun x => if x == o then n else x)).Nodup := by
  induction l with
  | nil => simp
  | cons x t ih =>
    rw [List.nodup_cons] at hl
    rw [List.map_cons, List.nodup_cons]
    refine ⟨?_, ih hl.2 (fun hmem => hn (List.mem_cons_of_mem _ hmem))⟩
    intro hmem
    rcases List.mem_map.mp hmem with ⟨z, hz, hzx⟩
    by_cases hx : x == o
    · simp only [hx, ite_true] at hzx
      by_cases hzo : z == o
      · simp only [hzo, ite_true] at hzx
        have : x = o := eq_of_beq hx
        have hzo' : z = o := eq_of_beq hzo
        exact hl.1 (by rw [this, ← hzo']; exact hz)
      · simp only [hzo, Bool.false_eq_true, if_neg, not_false_iff,
          ite_false] at hzx
        exact hn (hzx ▸ List.mem_cons_of_mem _ hz)
    · simp only [hx, Bool.false_eq_true, if_neg, not_false_iff,
        ite_false] at hzx
      by_cases hzo : z == o
      · simp only [hzo, ite_true] at hzx
        exact hn (hzx ▸ List.mem_cons_self _ _)
      · simp only [hzo, Bool.false_eq_true, if_neg, not_false_iff,
          ite_false] at hzx
        exact hl.1 (hzx ▸ hz)

theorem execPlan_clean (now : Nat) (lockOk : String → Bool) :
    ∀ (plan : List (String × String)) (dir : List DirFile) (u : UEntries),
      cleanExec plan dir = true →
      (∀ e ∈ plan, lockOk e.1 = true) →
      (dir.map (·.name)).Nodup →
      (∀ e ∈ plan, e.1 ∈ dir.map (·.name)) →
      (plan.map (·.1)).Nodup →
      (execPlan lockOk now plan (dir, u)).1 = dir.map (substFile plan) := by
  intro plan
  induction plan with
  | nil =>
    intro dir u _ _ _ _ _
    have hid : dir.map (substFile []) = dir :=
      (List.map_congr_left (fun f _ => substFile_nil f)).trans
        (List.map_id dir)
    simp [execPlan, hid]
  | cons e rest ih =>
    obtain ⟨o, n⟩ := e
    intro dir u hclean hlock hnd hsrc hsnd
    unfold cleanExec at hclean
    rw [Bool.and_eq_true, Bool.and_eq_true] at hclean
    obtain ⟨⟨h1, h2'⟩, h3⟩ := hclean
    have h2 : dir.any (fun f => f.name == n) = false := by
      cases hval : dir.any (fun f => f.name == n)
      · rfl
      · rw [hval] at h2'; cases h2'
    have hnin : n ∉ dir.map (·.name) := by
      intro hmem
      rcases List.mem_map.mp hmem with ⟨f, hf, hfn⟩
      have := List.any_eq_false.mp h2 f hf
      exact this (by simp [hfn])
    have hon : o ≠ n := by
      intro hcon
      rcases List.any_eq_true.mp h1 with ⟨f, hf, hfo⟩
      have : f.name = o := eq_of_beq hfo
      exact hnin (hcon ▸ this ▸ List.mem_map_of_mem _ hf)
    have hlockO : lockOk o = true := hlock (o, n) (List.mem_cons_self _ _)
    have hstep : execPlan lockOk now ((o, n) :: rest) (dir, u) =
        execPlan lockOk now rest
          (renameFile o n dir,
            update_file (fsOf (renameFile o n dir)) now u n (some o)) := by
      show List.foldl _ (execStep lockOk now (dir, u) (o, n)) rest = _
      unfold execStep
      simp only [hlockO, h1, if_pos, ite_true]
      rfl
    rw [hstep]
    have hmapdir : renameFile o n dir = dir.map (renamePointwise o n) :=
      renameFile_no_target o n dir h2 hon
    have hnames2 : ((renameFile o n dir).map (·.name)).Nodup := by
      rw [names_renameFile o n dir h2 hon]
      exact replace_nodup _ o n hnd hnin
    have hONotRest : o ∉ rest.map (·.1) := by
      rw [List.map_cons, List.nodup_cons] at hsnd
      exact hsnd.1
    have hsrc2 : ∀ e ∈ rest, e.1 ∈ (renameFile o n dir).map (·.name) := by
      intro e he
      have hmem : e.1 ∈ dir.map (·.name) :=
        hsrc e (List.mem_cons_of_mem _ he)
      have hne1 : e.1 ≠ o := by
        intro hcon
        exact hONotRest (hcon ▸ List.mem_map_of_mem _ he)
      rw [names_renameFile o n dir h2 hon]
      have : (fun x => if x == o then n else x) e.1 = e.1 := by
        simp [beq_eq_false_iff_ne.mpr hne1]
      exact this ▸ List.mem_map_of_mem _ hmem
    have ihr := ih (renameFile o n dir)
      (update_file (fsOf (renameFile o n dir)) now u n (some o)) h3
      (fun e he => hlock e (List.mem_cons_of_mem _ he)) hnames2 hsrc2
      ((List.nodup_cons.mp (by simpa using hsnd)).2)
    rw [ihr, hmapdir, List.map_map]
    apply List.map_congr_left
    intro f hf
    show substFile rest (renamePointwise o n f) = substFile ((o, n) :: rest) f
    have hnRest : n ∉ rest.map (·.1) := by
      intro hmem
      have hsub : ∀ e ∈ rest, e.1 ∈ dir.map (·.name) :=
        fun e he => hsrc e (List.mem_cons_of_mem _ he)
      rcases List.mem_map.mp hmem with ⟨e, he, hen⟩
      exact hnin (hen ▸ hsub e he)
    by_cases hfo : f.name == o
    · have hfo' : f.name = o := eq_of_beq hfo
      unfold renamePointwise substFile
      simp only [hfo, ite_true]
      rw [substName_not_source rest n hnRest]
      show ({ f with name := n } : DirFile) =
        { f with name := substName ((o, n) :: rest) f.name }
      unfold substName
      rw [List.find?_cons_of_pos _ (by simp [hfo'])]
    · have hfo' : f.name ≠ o := fun hcon => by simp [hcon] at hfo
      unfold renamePointwise
      simp only [hfo, Bool.false_eq_true, if_neg, not_false_iff, ite_false]
      unfold substFile substName
      rw [List.find?_cons_of_neg _ (by simp; exact fun hcon => hfo' hcon.symm)]

/-! ### The stable sort -/

theorem insertSorted_perm {α : Type} (le : α → α → Bool) (a : α)
    (l : List α) : List.Perm (insertSorted le a l) (a :: l) := by
  induction l with
  | nil => exact List.Perm.refl _
  | cons b t ih =>
    unfold insertSorted
    by_cases h : le a b
    · simp only [h, ite_true]
      exact List.Perm.refl _
    · simp only [h, Bool.false_eq_true, if_neg, not_false_iff, ite_false]
      exact (List.Perm.cons b ih).trans (List.Perm.swap a b t)

theorem stableSort_perm {α : Type} (le : α → α → Bool) (l : List α) :
    List.Perm (stableSort le l) l := by
  induction l with
  | nil => exact List.Perm.refl _
  | cons a t ih =>
    exact (insertSorted_perm le a (stableSort le t)).trans
      (List.Perm.cons a ih)

theorem mem_stableSort {α : Type} (le : α → α → Bool) (l : List α)
    (a : α) : a ∈ stableSort le l ↔ a ∈ l :=
  (stableSort_perm le l).mem_iff

theorem insertSorted_pairwise {α : Type} (le : α → α → Bool)
    (htrans : ∀ a b c, le a b = true → le b c = true → le a c = true)
    (htotal : ∀ a b, le a b || le b a) (a : α) (l : List α)
    (h : l.Pairwise (fun x y => le x y = true)) :
    (insertSorted le a l).Pairwise (fun x y => le x y = true) := by
  induction l with
  | nil => simp [insertSorted]
  | cons b t ih =>
    rw [List.pairwise_cons] at h
    unfold insertSorted
    by_cases hab : le a b
    · simp only [hab, ite_true]
      rw [List.pairwise_cons]
      refine ⟨?_, List.pairwise_cons.mpr h⟩
      intro y hy
      rcases List.mem_cons.mp hy with hyb | hyt
      · exact hyb ▸ hab
      · exact htrans a b y hab (h.1 y hyt)
    · simp only [hab, Bool.false_eq_true, if_neg, not_false_iff, ite_false]
      rw [List.pairwise_cons]
      have hba : le b a = true := by
        have := htotal a b
        rw [Bool.or_eq_true] at this
        rcases this with h' | h'
        · exact absurd h' hab
        · exact h'
      refine ⟨?_, ih h.2⟩
      intro y hy
      have : y ∈ a :: t := (insertSorted_perm le a t).mem_iff.mp hy
      rcases List.mem_cons.mp this with hya | hyt
      · exact hya ▸ hba
      · exact h.1 y hyt

theorem stableSort_pairwise {α : Type} (le : α → α → Bool)
    (htrans : ∀ a b c, le a b = true → le b c = true → le a c = true)
    (htotal : ∀ a b, le a b || le b a) (l : List α) :
    (stableSort le l).Pairwise (fun x y => le x y = true) := by
  induction l with
  | nil => simp [stableSort]
  | cons a t ih => exact insertSorted_pairwise le htrans htotal a _ ih

theorem map_insertSorted {α β : Type} (le : α → α → Bool)
    (le' : β → β → Bool) (f : α → β)
    (hc : ∀ a b, le' (f a) (f b) = le a b) (a : α) (l : List α) :
    (insertSorted le a l).map f = insertSorted le' (f a) (l.map f) := by
  induction l with
  | nil => rfl
  | cons b t ih =>
    unfold insertSorted
    by_cases h : le a b
    · simp [h, hc a b]
    · have h' : le' (f a) (f b) = false := by rw [hc a b]; simpa using h
      simp only [h, Bool.false_eq_true, if_neg, not_false_iff, ite_false,
        List.map_cons, h', ih]

theorem map_stableSort {α β : Type} (le : α → α → Bool)
    (le' : β → β → Bool) (f : α → β)
    (hc : ∀ a b, le' (f a) (f b) = le a b) (l : List α) :
    (stableSort le l).map f = stableSort le' (l.map f) := by
  induction l with
  | nil => rfl
  | cons a t ih =>
    show (insertSorted le a (stableSort le t)).map f = _
    rw [map_insertSorted le le' f hc, ih]
    rfl

/-! ### The stages of one live reconciliation pass, named -/

def passFiles (ignored : String → Bool) (st : RecState) : List DirFile :=
  scanFiles ignored st.dir

def passCIdx (ignored : String → Bool) (now : Nat) (st : RecState) :
    CEntries :=
  (pruneAll (addAll (passFiles ignored st) now st.cIdx)
    (updAll (fsOf st.dir) (passFiles ignored st) now st.uIdx)
    ((passFiles ignored st).map fileKeyOf)).1

def passSorted (ignored : String → Bool) (now : Nat) (st : RecState) :
    List (Nat × Nat × DirFile) :=
  sortedTuples (passCIdx ignored now st) (passFiles ignored st)

def passPlan (ignored : String → Bool) (now : Nat) (st : RecState) :
    List (String × String) :=
  buildPlan (passSorted ignored now st)

theorem reconcile_plan_eq (ignored lockOk : String → Bool) (now : Nat)
    (st : RecState) :
    (reconcile ignored lockOk now false st).2 = passPlan ignored now st :=
  rfl

theorem reconcile_cIdx_eq (ignored lockOk : String → Bool) (now : Nat)
    (st : RecState) :
    (reconcile ignored lockOk now false st).1.cIdx =
      passCIdx ignored now st :=
  rfl

theorem reconcile_dir_eq (ignored lockOk : String → Bool) (now : Nat)
    (st : RecState) :
    (reconcile ignored lockOk now false st).1.dir =
      (execPlan lockOk now (passPlan ignored now st)
        (st.dir,
          (pruneAll (addAll (passFiles ignored st) now st.cIdx)
            (updAll (fsOf st.dir) (passFiles ignored st) now st.uIdx)
            ((passFiles ignored st).map fileKeyOf)).2)).1 :=
  rfl

/-! ### Small helpers -/

theorem dictGet_isSome_mem {κ α : Type} [BEq κ] [LawfulBEq κ]
    (m : List (κ × α)) (k : κ) (h : (dictGet m k).isSome) :
    ∃ p ∈ m, p.1 = k := by
  unfold dictGet at h
  cases hf : m.find? (fun p => p.1 == k) with
  | none => rw [hf] at h; cases h
  | some p =>
    refine ⟨p, List.mem_of_find?_eq_some hf, ?_⟩
    have := List.find?_some hf
    exact eq_of_beq this

theorem canonName_marked (i : Nat) (nm : String) :
    strStartsWith (canonName i nm) (rankMark i) = true := by
  unfold canonName
  by_cases h : strStartsWith nm (rankMark i)
  · simp [h]
  · simp only [h, Bool.false_eq_true, if_neg, not_false_iff, ite_false]
    exact strStartsWith_append _ _

theorem tupleLE_trans (a b c : Nat × Nat × DirFile) (h1 : tupleLE a b)
    (h2 : tupleLE b c) : tupleLE a c := by
  unfold tupleLE at *
  rw [decide_eq_true_iff] at *
  omega

theorem tupleLE_total (a b : Nat × Nat × DirFile) :
    tupleLE a b || tupleLE b a := by
  unfold tupleLE
  rw [Bool.or_eq_true, decide_eq_true_iff, decide_eq_true_iff]
  omega

theorem find_source_unique (plan : List (String × String))
    (hnd : (plan.map (·.1)).Nodup) (nm : String) (c : String)
    (hmem : (nm, c) ∈ plan) :
    plan.find? (fun e => e.1 == nm) = some (nm, c) := by
  induction plan with
  | nil => cases hmem
  | cons e rest ih =>
    rw [List.map_cons, List.nodup_cons] at hnd
    rcases List.mem_cons.mp hmem with he | he
    · subst he
      exact List.find?_cons_of_pos _ (by simp)
    · have hne : (e.1 == nm) = false := by
        rw [beq_eq_false_iff_ne]
        intro hcon
        exact hnd.1 (hcon ▸ List.mem_map_of_mem (·.1) he)
      rw [List.find?_cons_of_neg _ (by simp [hne])]
      exact ih hnd.2 he

/-- A name cannot simultaneously lack the rank marker and be of the marked
form. -/
theorem ne_append_of_not_marked (i : Nat) (nm x : String)
    (h : strStartsWith nm (rankMark i) = false) : nm ≠ rankMark i ++ x := by
  intro hcon
  rw [hcon] at h
  rw [strStartsWith_append] at h
  cases h

/-! ### Facts about one pass's stages -/

theorem passFiles_names_nodup (ignored : String → Bool) (st : RecState)
    (hnames : (st.dir.map (·.name)).Nodup) :
    ((passFiles ignored st).map (·.name)).Nodup :=
  List.Sublist.nodup
    (List.Sublist.map _ (List.filter_sublist st.dir)) hnames

theorem passFiles_subset (ignored : String → Bool) (st : RecState)
    (f : DirFile) (hf : f ∈ passFiles ignored st) : f ∈ st.dir :=
  List.mem_of_mem_filter hf

theorem passCIdx_eq_filter (ignored : String → Bool) (now : Nat)
    (st : RecState) :
    passCIdx ignored now st =
      (addAll (passFiles ignored st) now st.cIdx).filter
        (fun p => ((passFiles ignored st).map fileKeyOf).contains p.1) :=
  pruneAll_fst_eq_filter _ _ _

theorem passCIdx_wf (ignored : String → Bool) (now : Nat) (st : RecState)
    (hwf : ∀ p ∈ st.cIdx, p.2.key = p.1) :
    ∀ p ∈ passCIdx ignored now st, p.2.key = p.1 := by
  intro p hp
  rw [passCIdx_eq_filter] at hp
  exact addAll_wf _ now st.cIdx hwf p (List.mem_of_mem_filter hp)

theorem passCIdx_keys_nodup (ignored : String → Bool) (now : Nat)
    (st : RecState) (hck : (st.cIdx.map (·.1)).Nodup) :
    ((passCIdx ignored now st).map (·.1)).Nodup := by
  rw [passCIdx_eq_filter]
  exact List.Sublist.nodup (List.Sublist.map _ (List.filter_sublist _))
    (addAll_keys_nodup _ now st.cIdx hck)

theorem passCIdx_covers (ignored : String → Bool) (now : Nat)
    (st : RecState) (f : DirFile) (hf : f ∈ passFiles ignored st) :
    ∃ p ∈ passCIdx ignored now st, p.1 = fileKeyOf f := by
  obtain ⟨p, hp, hpk⟩ := dictGet_isSome_mem _ _
    (addAll_covers (passFiles ignored st) now st.cIdx f hf)
  refine ⟨p, ?_, hpk⟩
  rw [passCIdx_eq_filter]
  refine List.mem_filter.mpr ⟨hp, ?_⟩
  rw [hpk]
  exact List.elem_eq_true_of_mem (List.mem_map_of_mem _ hf)

theorem pass_sorted_covers (ignored : String → Bool) (now : Nat)
    (st : RecState) (hkeys : ((passFiles ignored st).map fileKeyOf).Nodup)
    (hwf : ∀ p ∈ st.cIdx, p.2.key = p.1) (f : DirFile)
    (hf : f ∈ passFiles ignored st) :
    f ∈ (passSorted ignored now st).map (·.2.2) := by
  obtain ⟨p, hp, hpk⟩ := passCIdx_covers ignored now st f hf
  have hwfp : p.2.key = p.1 := passCIdx_wf ignored now st hwf p hp
  have hcur : currentFilesMap (passFiles ignored st) p.2.key = some f := by
    rw [hwfp, hpk]
    exact currentFilesMap_eq _ hkeys f hf
  have hmem : (p.2.recorded_ctime, p.2.inode, f) ∈
      rankedTuples (passCIdx ignored now st) (passFiles ignored st) := by
    unfold rankedTuples
    exact List.mem_filterMap.mpr ⟨p, hp, by rw [hcur]⟩
  have : (p.2.recorded_ctime, p.2.inode, f) ∈ passSorted ignored now st := by
    unfold passSorted sortedTuples
    exact (mem_stableSort _ _ _).mpr hmem
  exact List.mem_map.mpr ⟨_, this, rfl⟩

theorem passSorted_mem (ignored : String → Bool) (now : Nat)
    (st : RecState) (t : Nat × Nat × DirFile)
    (ht : t ∈ passSorted ignored now st) : t.2.2 ∈ passFiles ignored st := by
  unfold passSorted sortedTuples at ht
  exact (rankedTuples_mem _ _ t ((mem_stableSort _ _ _).mp ht)).1

theorem passSorted_names_nodup (ignored : String → Bool) (now : Nat)
    (st : RecState) (hnames : (st.dir.map (·.name)).Nodup)
    (hck : (st.cIdx.map (·.1)).Nodup)
    (hwf : ∀ p ∈ st.cIdx, p.2.key = p.1) :
    ((passSorted ignored now st).map (fun t => t.2.2.name)).Nodup := by
  have hperm : List.Perm
      ((passSorted ignored now st).map (fun t => t.2.2.name))
      ((rankedTuples (passCIdx ignored now st)
        (passFiles ignored st)).map (fun t => t.2.2.name)) :=
    List.Perm.map _ (stableSort_perm _ _)
  exact hperm.symm.nodup
    (rankedTuples_names_nodup _ _ (passCIdx_keys_nodup ignored now st hck)
      (passCIdx_wf ignored now st hwf)
      (passFiles_names_nodup ignored st hnames))

theorem passPlan_sources_names (ignored : String → Bool) (now : Nat)
    (st : RecState) (e : String × String)
    (he : e ∈ passPlan ignored now st) :
    ∃ t ∈ passSorted ignored now st, e.1 = t.2.2.name := by
  have hsub := buildPlan_sources_sublist (passSorted ignored now st)
  have hmem : e.1 ∈ (passSorted ignored now st).map (fun t => t.2.2.name) :=
    hsub.subset (List.mem_map_of_mem _ he)
  rcases List.mem_map.mp hmem with ⟨t, ht, htn⟩
  exact ⟨t, ht, htn.symm⟩

theorem passPlan_src_in_dir (ignored : String → Bool) (now : Nat)
    (st : RecState) (e : String × String)
    (he : e ∈ passPlan ignored now st) : e.1 ∈ st.dir.map (·.name) := by
  obtain ⟨t, ht, htn⟩ := passPlan_sources_names ignored now st e he
  rw [htn]
  exact List.mem_map_of_mem _
    (passFiles_subset ignored st _ (passSorted_mem ignored now st t ht))

theorem passPlan_sources_nodup (ignored : String → Bool) (now : Nat)
    (st : RecState) (hnames : (st.dir.map (·.name)).Nodup)
    (hck : (st.cIdx.map (·.1)).Nodup)
    (hwf : ∀ p ∈ st.cIdx, p.2.key = p.1) :
    ((passPlan ignored now st).map (·.1)).Nodup :=
  List.Sublist.nodup (buildPlan_sources_sublist _)
    (passSorted_names_nodup ignored now st hnames hck hwf)

theorem pass_dir_final (ignored lockOk : String → Bool) (now : Nat)
    (st : RecState) (hnames : (st.dir.map (·.name)).Nodup)
    (hck : (st.cIdx.map (·.1)).Nodup)
    (hwf : ∀ p ∈ st.cIdx, p.2.key = p.1)
    (hlock : ∀ e ∈ passPlan ignored now st, lockOk e.1 = true)
    (hclean : cleanExec (passPlan ignored now st) st.dir = true) :
    (reconcile ignored lockOk now false st).1.dir =
      st.dir.map (substFile (passPlan ignored now st)) := by
  rw [reconcile_dir_eq]
  exact execPlan_clean now lockOk (passPlan ignored now st) st.dir _
    hclean hlock hnames (fun e he => passPlan_src_in_dir ignored now st e he)
    (passPlan_sources_nodup ignored now st hnames hck hwf)

theorem passSorted_pairwise (ignored : String → Bool) (now : Nat)
    (st : RecState) :
    (passSorted ignored now st).Pairwise
      (fun a b => tupleLE a b = true) := by
  unfold passSorted sortedTuples
  exact stableSort_pairwise tupleLE tupleLE_trans tupleLE_total _

theorem pass_files_perm (ignored : String → Bool) (now : Nat)
    (st : RecState) (hnames : (st.dir.map (·.name)).Nodup)
    (hck : (st.cIdx.map (·.1)).Nodup)
    (hwf : ∀ p ∈ st.cIdx, p.2.key = p.1)
    (hkeys : ((passFiles ignored st).map fileKeyOf).Nodup) :
    List.Perm ((passSorted ignored now st).map (·.2.2))
      (passFiles ignored st) := by
  have hperm : List.Perm ((passSorted ignored now st).map (·.2.2))
      ((rankedTuples (passCIdx ignored now st)
        (passFiles ignored st)).map (·.2.2)) :=
    List.Perm.map _ (stableSort_perm _ _)
  have hrn : (((rankedTuples (passCIdx ignored now st)
      (passFiles ignored st)).map (·.2.2)).map (·.name)).Nodup := by
    rw [List.map_map]
    exact rankedTuples_names_nodup _ _
      (passCIdx_keys_nodup ignored now st hck)
      (passCIdx_wf ignored now st hwf)
      (passFiles_names_nodup ignored st hnames)
  have hrnodup : ((rankedTuples (passCIdx ignored now st)
      (passFiles ignored st)).map (·.2.2)).Nodup :=
    List.Nodup.of_map _ hrn
  have hfnodup : (passFiles ignored st).Nodup :=
    List.Nodup.of_map _ (passFiles_names_nodup ignored st hnames)
  refine hperm.trans ?_
  rw [List.perm_ext_iff_of_nodup hrnodup hfnodup]
  intro f
  constructor
  · intro hf
    rcases List.mem_map.mp hf with ⟨t, ht, htf⟩
    exact htf ▸ (rankedTuples_mem _ _ t ht).1
  · intro hf
    have := pass_sorted_covers ignored now st hkeys hwf f hf
    rcases List.mem_map.mp this with ⟨t, ht, htf⟩
    refine List.mem_map.mpr ⟨t, ?_, htf⟩
    unfold passSorted sortedTuples at ht
    exact (mem_stableSort _ _ _).mp ht

theorem pass_subst_canon (ignored : String → Bool) (now : Nat)
    (st : RecState) (hnames : (st.dir.map (·.name)).Nodup)
    (hck : (st.cIdx.map (·.1)).Nodup)
    (hwf : ∀ p ∈ st.cIdx, p.2.key = p.1) (i : Nat)
    (t : Nat × Nat × DirFile)
    (ht : (passSorted ignored now st)[i]? = some t) :
    substName (passPlan ignored now st) t.2.2.name =
      canonName i t.2.2.name := by
  have hsnodup := passSorted_names_nodup ignored now st hnames hck hwf
  have hpnodup := passPlan_sources_nodup ignored now st hnames hck hwf
  by_cases hst : strStartsWith t.2.2.name (rankMark i) = true
  · unfold canonName
    rw [if_pos hst]
    apply substName_not_source
    intro hmem
    rcases List.mem_map.mp hmem with ⟨e, he, hen⟩
    rcases List.mem_filterMap.mp he with ⟨jt, hjt, hpe⟩
    obtain ⟨j, t'⟩ := jt
    have hget' : (passSorted ignored now st)[j]? = some t' :=
      List.mem_enum_iff_getElem?.mp hjt
    have hname' : t'.2.2.name = e.1 := (planEntry_fst _ _ hpe).symm
    have hij : i = j := by
      have h1 : ((passSorted ignored now st).map
          (fun t => t.2.2.name))[i]? = some t.2.2.name := by
        rw [List.getElem?_map, ht]
        rfl
      have h2 : ((passSorted ignored now st).map
          (fun t => t.2.2.name))[j]? = some t.2.2.name := by
        rw [List.getElem?_map, hget']
        simp [hname', hen]
      have hlen : i < ((passSorted ignored now st).map
          (fun t => t.2.2.name)).length := by
        rcases List.getElem?_eq_some_iff.mp h1 with ⟨hl, _⟩
        exact hl
      exact List.getElem?_inj hlen hsnodup (h1.trans h2.symm)
    subst hij
    have htt : t' = t := by
      rw [ht] at hget'
      exact ((Option.some.injEq _ _).mp hget'.symm)
    rw [htt] at hpe
    unfold planEntry at hpe
    rw [if_pos hst] at hpe
    cases hpe
  · have hst' : strStartsWith t.2.2.name (rankMark i) = false := by
      cases hv : strStartsWith t.2.2.name (rankMark i)
      · rfl
      · exact absurd hv hst
    unfold canonName
    rw [if_neg hst]
    have hmem : (t.2.2.name,
        rankMark i ++ stripNumMark t.2.2.name) ∈
        passPlan ignored now st := by
      unfold passPlan buildPlan
      apply List.mem_filterMap.mpr
      refine ⟨(i, t), ?_, ?_⟩
      · exact List.mem_enum_iff_getElem?.mpr ht
      · unfold planEntry
        rw [if_neg hst]
        have hne : (t.2.2.name ==
            rankMark i ++ stripNumMark t.2.2.name) = false :=
          beq_eq_false_iff_ne.mpr (ne_append_of_not_marked i _ _ hst')
        simp [hne]
    unfold substName
    rw [find_source_unique _ hpnodup _ _ hmem]

/-! ## C2: the canonical ranked-name invariant -/

/-- C2 counterexample: `os.rename` silently replaces an existing
destination.  Starting from the two files `01-a` (inode 1, indexed ctime 0)
and `00-a` (inode 2, indexed ctime 1), the pass plans the swap
`01-a → 00-a`, `00-a → 01-a`; the first rename destroys the file `00-a`
and the pass ends with a single file named `01-a`: a file was lost and the
surviving name's rank is 1 with no rank 0 — the claimed invariant
(contiguous ranks from 0 for all present files) fails. -/
theorem reconcile_swap_destroys_file :
    (reconcile (fun _ => false) (fun _ => true) 10 false
        ⟨[⟨"01-a", 1, 0, some "h1"⟩, ⟨"00-a", 2, 0, some "h2"⟩],
          [((1, 0), ⟨(1, 0), "01-a", 0, 1, 0⟩),
            ((2, 0), ⟨(2, 0), "00-a", 1, 2, 0⟩)], []⟩).1.dir.map (·.name) =
        ["01-a"] ∧
      strStartsWith "01-a" (rankMark 0) = false := by
  exact ⟨by decide, by decide⟩

/-- C2 amended: provided the pass executes cleanly — every planned rename
still finds its source and no planned target collides with a present file
(`cleanExec`), per-file locks are all granted, directory names and scanned
file keys are duplicate-free and the creation index is well-formed — the
pass leaves exactly the canonically ranked state: every file's final name
is `substFile plan`, the file at sorted position `i` ends with name
`canonName i` (its rank marker, dash, and its base name stripped of a prior
two-digit marker), which carries the rank-`i` marker; ranks are the
positions `0..n-1` of the (recordedCtime, inode)-sorted scanned files, and
those sorted files are exactly the scanned files. -/
theorem reconcile_canonical_invariant
    (ignored lockOk : String → Bool) (now : Nat) (st : RecState)
    (hnames : (st.dir.map (·.name)).Nodup)
    (hkeys : ((passFiles ignored st).map fileKeyOf).Nodup)
    (hwf : ∀ p ∈ st.cIdx, p.2.key = p.1)
    (hck : (st.cIdx.map (·.1)).Nodup)
    (hlock : ∀ e ∈ passPlan ignored now st, lockOk e.1 = true)
    (hclean : cleanExec (passPlan ignored now st) st.dir = true) :
    (reconcile ignored lockOk now false st).1.dir =
        st.dir.map (substFile (passPlan ignored now st)) ∧
      (∀ (i : Nat) (t : Nat × Nat × DirFile),
        (passSorted ignored now st)[i]? = some t →
          substName (passPlan ignored now st) t.2.2.name =
              canonName i t.2.2.name ∧
            strStartsWith (canonName i t.2.2.name) (rankMark i) = true) ∧
      (passSorted ignored now st).Pairwise
        (fun a b => tupleLE a b = true) ∧
      List.Perm ((passSorted ignored now st).map (·.2.2))
        (passFiles ignored st) :=
  ⟨pass_dir_final ignored lockOk now st hnames hck hwf hlock hclean,
    fun i t ht =>
      ⟨pass_subst_canon ignored now st hnames hck hwf i t ht,
        canonName_marked i t.2.2.name⟩,
    passSorted_pairwise ignored now st,
    pass_files_perm ignored now st hnames hck hwf hkeys⟩

/-- The spec's own scenario: `notes.md` observed before `spec.md`. -/
def exDir : List DirFile :=
  [⟨"notes.md", 1, 0, some "h1"⟩, ⟨"spec.md", 2, 0, some "h2"⟩]

def exSt : RecState := ⟨exDir, [], []⟩

theorem reconcile_canonical_invariant_witness :
    ((exSt.dir.map (·.name)).Nodup ∧
      ((passFiles (fun _ => false) exSt).map fileKeyOf).Nodup ∧
      (∀ p ∈ exSt.cIdx, p.2.key = p.1) ∧
      (exSt.cIdx.map (·.1)).Nodup ∧
      (∀ e ∈ passPlan (fun _ => false) 10 exSt,
        (fun (_ : String) => true) e.1 = true) ∧
      cleanExec (passPlan (fun _ => false) 10 exSt) exSt.dir = true) ∧
    ((reconcile (fun _ => false) (fun _ => true) 10 false exSt).1.dir =
        exSt.dir.map (substFile (passPlan (fun _ => false) 10 exSt)) ∧
      (∀ (i : Nat) (t : Nat × Nat × DirFile),
        (passSorted (fun _ => false) 10 exSt)[i]? = some t →
          substName (passPlan (fun _ => false) 10 exSt) t.2.2.name =
              canonName i t.2.2.name ∧
            strStartsWith (canonName i t.2.2.name) (rankMark i) = true) ∧
      (passSorted (fun _ => false) 10 exSt).Pairwise
        (fun a b => tupleLE a b = true) ∧
      List.Perm ((passSorted (fun _ => false) 10 exSt).map (·.2.2))
        (passFiles (fun _ => false) exSt)) :=
  ⟨⟨by decide, by decide, by decide, by decide, by decide, by decide⟩,
    reconcile_canonical_invariant (fun _ => false) (fun _ => true) 10 exSt
      (by decide) (by decide) (by decide) (by decide) (by decide)
      (by decide)⟩

/-! ## Towards C3: the second pass sees the renamed state -/

theorem substName_source_mem (plan : List (String × String)) (nm : String)
    (h : nm ∈ plan.map (·.1)) :
    ∃ e ∈ plan, e.1 = nm ∧ substName plan nm = e.2 := by
  have hsome : (plan.find? (fun e => e.1 == nm)).isSome := by
    rw [List.find?_isSome]
    rcases List.mem_map.mp h with ⟨e, he, hen⟩
    exact ⟨e, he, by simp [hen]⟩
  cases hf : plan.find? (fun e => e.1 == nm) with
  | none => rw [hf] at hsome; cases hsome
  | some e =>
    have hbe := @List.find?_some (String × String) (fun e => e.1 == nm) e
      plan hf
    refine ⟨e, List.mem_of_find?_eq_some hf, eq_of_beq hbe, ?_⟩
    unfold substName
    rw [hf]

theorem scanFiles_map_subst (ignored : String → Bool) (dir : List DirFile)
    (plan : List (String × String))
    (hsrc : ∀ e ∈ plan, ∃ f ∈ scanFiles ignored dir, e.1 = f.name)
    (htgt : ∀ e ∈ plan, ignored e.2 = false) :
    scanFiles ignored (dir.map (substFile plan)) =
      (scanFiles ignored dir).map (substFile plan) := by
  unfold scanFiles
  rw [List.filter_map]
  congr 1
  apply List.filter_congr
  intro f _
  show (!ignored (substFile plan f).name) = (!ignored f.name)
  by_cases hmem : f.name ∈ plan.map (·.1)
  · obtain ⟨e, he, he1, hesub⟩ := substName_source_mem plan f.name hmem
    obtain ⟨g, hg, hge⟩ := hsrc e he
    have hgscan : ignored g.name = false := by
      have := List.mem_filter.mp hg
      simpa using this.2
    have hfig : ignored f.name = false := by
      have hfg : f.name = g.name := he1.symm.trans hge
      rw [hfg]
      exact hgscan
    have : (substFile plan f).name = e.2 := hesub
    rw [this, htgt e he, hfig]
  · have : (substFile plan f).name = f.name := substName_not_source plan _ hmem
    rw [this]

theorem currentFilesMap_map_subst (files : List DirFile)
    (plan : List (String × String)) (k : Nat × Nat) :
    currentFilesMap (files.map (substFile plan)) k =
      (currentFilesMap files k).map (substFile plan) := by
  unfold currentFilesMap
  rw [← List.map_reverse, List.find?_map]
  rfl

theorem rankedTuples_map_subst (c : CEntries) (files : List DirFile)
    (plan : List (String × String)) :
    rankedTuples c (files.map (substFile plan)) =
      (rankedTuples c files).map
        (fun t => (t.1, t.2.1, substFile plan t.2.2)) := by
  unfold rankedTuples
  rw [List.map_filterMap]
  apply List.filterMap_congr
  intro p _
  rw [currentFilesMap_map_subst]
  cases currentFilesMap files p.2.key <;> rfl

theorem passFiles_second (ignored : String → Bool) (now : Nat)
    (st st1 : RecState)
    (hdir1 : st1.dir = st.dir.map (substFile (passPlan ignored now st)))
    (htgt : ∀ e ∈ passPlan ignored now st, ignored e.2 = false) :
    passFiles ignored st1 =
      (passFiles ignored st).map (substFile (passPlan ignored now st)) := by
  unfold passFiles
  rw [hdir1]
  apply scanFiles_map_subst
  · intro e he
    obtain ⟨t, ht, htn⟩ := passPlan_sources_names ignored now st e he
    exact ⟨t.2.2, passSorted_mem ignored now st t ht, htn⟩
  · exact htgt

theorem passCIdx_second (ignored : String → Bool) (now now2 : Nat)
    (st st1 : RecState)
    (hcidx1 : st1.cIdx = passCIdx ignored now st)
    (hfiles : passFiles ignored st1 =
      (passFiles ignored st).map (substFile (passPlan ignored now st))) :
    passCIdx ignored now2 st1 = passCIdx ignored now st := by
  have hk : (passFiles ignored st1).map fileKeyOf =
      (passFiles ignored st).map fileKeyOf := by
    rw [hfiles, List.map_map]
    exact List.map_congr_left (fun f _ => rfl)
  have hcov : ∀ f ∈ passFiles ignored st1,
      (dictGet (passCIdx ignored now st) (fileKeyOf f)).isSome := by
    intro f hf
    have : fileKeyOf f ∈ (passFiles ignored st).map fileKeyOf := by
      rw [← hk]
      exact List.mem_map_of_mem _ hf
    rcases List.mem_map.mp this with ⟨g, hg, hgk⟩
    obtain ⟨p, hp, hpk⟩ := passCIdx_covers ignored now st g hg
    unfold dictGet
    have : (List.find? (fun q => q.1 == fileKeyOf f)
        (passCIdx ignored now st)).isSome := by
      rw [List.find?_isSome]
      exact ⟨p, hp, by simp [hpk, hgk]⟩
    cases hfind : List.find? (fun q => q.1 == fileKeyOf f)
        (passCIdx ignored now st)
    · rw [hfind] at this; cases this
    · simp
  have hadd : addAll (passFiles ignored st1) now2 st1.cIdx =
      passCIdx ignored now st := by
    rw [hcidx1]
    exact addAll_of_covered _ _ _ hcov
  have hcontains : ∀ p ∈ passCIdx ignored now st,
      ((passFiles ignored st1).map fileKeyOf).contains p.1 = true := by
    intro p hp
    rw [passCIdx_eq_filter] at hp
    have := (List.mem_filter.mp hp).2
    rw [hk]
    simpa using this
  show (pruneAll (addAll (passFiles ignored st1) now2 st1.cIdx) _
      ((passFiles ignored st1).map fileKeyOf)).1 = _
  rw [hadd, pruneAll_noop _ _ _ hcontains]

theorem passSorted_second (ignored : String → Bool) (now now2 : Nat)
    (st st1 : RecState)
    (hcidx1 : st1.cIdx = passCIdx ignored now st)
    (hfiles : passFiles ignored st1 =
      (passFiles ignored st).map (substFile (passPlan ignored now st))) :
    passSorted ignored now2 st1 =
      (passSorted ignored now st).map
        (fun t => (t.1, t.2.1, substFile (passPlan ignored now st) t.2.2)) := by
  unfold passSorted sortedTuples
  rw [passCIdx_second ignored now now2 st st1 hcidx1 hfiles, hfiles,
    rankedTuples_map_subst]
  exact (map_stableSort tupleLE tupleLE
    (fun t => (t.1, t.2.1, substFile (passPlan ignored now st) t.2.2))
    (fun a b => rfl) _).symm

set_option maxHeartbeats 400000 in
theorem passPlan_second_nil (ignored lockOk : String → Bool)
    (now now2 : Nat) (st : RecState)
    (hnames : (st.dir.map (·.name)).Nodup)
    (hwf : ∀ p ∈ st.cIdx, p.2.key = p.1)
    (hck : (st.cIdx.map (·.1)).Nodup)
    (hlock : ∀ e ∈ passPlan ignored now st, lockOk e.1 = true)
    (hclean : cleanExec (passPlan ignored now st) st.dir = true)
    (htgt : ∀ e ∈ passPlan ignored now st, ignored e.2 = false) :
    passPlan ignored now2 ((reconcile ignored lockOk now false st).1) =
      [] := by
  have hdir1 : ((reconcile ignored lockOk now false st).1).dir =
      st.dir.map (substFile (passPlan ignored now st)) :=
    pass_dir_final ignored lockOk now st hnames hck hwf hlock hclean
  have hcidx1 : ((reconcile ignored lockOk now false st).1).cIdx =
      passCIdx ignored now st := reconcile_cIdx_eq ignored lockOk now st
  have hfiles := passFiles_second ignored now st
    ((reconcile ignored lockOk now false st).1) hdir1 htgt
  have hsorted2 := passSorted_second ignored now now2 st
    ((reconcile ignored lockOk now false st).1) hcidx1 hfiles
  unfold passPlan buildPlan
  rw [List.filterMap_eq_nil_iff, hsorted2]
  intro x hx
  obtain ⟨i, t'⟩ := x
  have hget := List.mem_enum_iff_getElem?.mp hx
  rw [List.getElem?_map] at hget
  cases h1 : (passSorted ignored now st)[i]? with
  | none => rw [h1] at hget; cases hget
  | some t =>
    rw [h1] at hget
    simp only [Option.map_some'] at hget
    have ht' : t' = (t.1, t.2.1,
        substFile (passPlan ignored now st) t.2.2) :=
      ((Option.some.injEq _ _).mp hget).symm
    have hname : t'.2.2.name =
        substName (passPlan ignored now st) t.2.2.name := by
      rw [ht']
      rfl
    have hcanon := pass_subst_canon ignored now st hnames hck hwf i t h1
    show planEntry (i, t') = none
    unfold planEntry
    have hmarked : strStartsWith t'.2.2.name (rankMark i) = true := by
      rw [hname, hcanon]
      exact canonName_marked i t.2.2.name
    rw [if_pos hmarked]

/-! ## C3: idempotence -/

/-- C3 counterexample: for the swap directory of
`reconcile_swap_destroys_file` the first pass (with no concurrent external
mutation) destroys one file and leaves `01-a`; the immediately following
second pass then computes the non-empty plan `[("01-a", "00-a")]` and
renames — the claimed idempotence over every directory state fails. -/
theorem reconcile_second_pass_not_empty :
    (reconcile (fun _ => false) (fun _ => true) 11 false
        ((reconcile (fun _ => false) (fun _ => true) 10 false
          ⟨[⟨"01-a", 1, 0, some "h1"⟩, ⟨"00-a", 2, 0, some "h2"⟩],
            [((1, 0), ⟨(1, 0), "01-a", 0, 1, 0⟩),
              ((2, 0), ⟨(2, 0), "00-a", 1, 2, 0⟩)], []⟩).1)).2 =
      [("01-a", "00-a")] := by
  decide

/-- C3 amended: under the clean-execution provisos of
`reconcile_canonical_invariant`, and provided no rename target becomes
ignored, a second immediate pass — at any later time and with any lock
oracle — computes an empty rename plan and renames nothing. -/
theorem reconcile_idempotent (ignored lockOk : String → Bool) (now : Nat)
    (st : RecState) (hnames : (st.dir.map (·.name)).Nodup)
    (hwf : ∀ p ∈ st.cIdx, p.2.key = p.1)
    (hck : (st.cIdx.map (·.1)).Nodup)
    (hlock : ∀ e ∈ passPlan ignored now st, lockOk e.1 = true)
    (hclean : cleanExec (passPlan ignored now st) st.dir = true)
    (htgt : ∀ e ∈ passPlan ignored now st, ignored e.2 = false) :
    ∀ (lockOk2 : String → Bool) (now2 : Nat),
      (reconcile ignored lockOk2 now2 false
          ((reconcile ignored lockOk now false st).1)).2 = [] ∧
        (reconcile ignored lockOk2 now2 false
            ((reconcile ignored lockOk now false st).1)).1.dir =
          ((reconcile ignored lockOk now false st).1).dir := by
  intro lockOk2 now2
  have hplan2 : passPlan ignored now2
      ((reconcile ignored lockOk now false st).1) = [] :=
    passPlan_second_nil ignored lockOk now now2 st hnames hwf hck hlock
      hclean htgt
  refine ⟨?_, ?_⟩
  · rw [reconcile_plan_eq]
    exact hplan2
  · rw [reconcile_dir_eq, hplan2]
    rfl

theorem reconcile_idempotent_witness :
    ((exSt.dir.map (·.name)).Nodup ∧
      (∀ p ∈ exSt.cIdx, p.2.key = p.1) ∧
      (exSt.cIdx.map (·.1)).Nodup ∧
      (∀ e ∈ passPlan (fun _ => false) 10 exSt,
        (fun (_ : String) => true) e.1 = true) ∧
      cleanExec (passPlan (fun _ => false) 10 exSt) exSt.dir = true ∧
      (∀ e ∈ passPlan (fun _ => false) 10 exSt,
        (fun (_ : String) => false) e.2 = false)) ∧
    ((reconcile (fun _ => false) (fun _ => true) 20 false
        ((reconcile (fun _ => false) (fun _ => true) 10 false
          exSt).1)).2 = [] ∧
      (reconcile (fun _ => false) (fun _ => true) 20 false
          ((reconcile (fun _ => false) (fun _ => true) 10 false
            exSt).1)).1.dir =
        ((reconcile (fun _ => false) (fun _ => true) 10 false
          exSt).1).dir) :=
  ⟨⟨by decide, by decide, by decide, by decide, by decide, by decide⟩,
    reconcile_idempotent (fun _ => false) (fun _ => true) 10 exSt
      (by decide) (by decide) (by decide) (by decide) (by decide)
      (by decide) (fun _ => true) 20⟩

end Chronodocs
